import Mathlib

/-!
Shallow embedding of `src/LFSR.py`: a reconfigurable Fibonacci linear
feedback shift register.  Python's arbitrary-precision non-negative
integers are modelled by `Nat`; the two exception types the module raises
(`ValueError`, `TypeError`) by `PyError`; the dynamically typed argument
of `set_state` (which is type-checked with `isinstance`) by `PyVal`.
Each mutating method is modelled as a function from the register (and the
arguments) to the updated register together with an optional raised
error; the register component of the result is the object as the method
leaves it, so that theorems can speak about mutation on failing calls.
-/

/-- The two exception kinds raised by the module: `ValueError` and
`TypeError`.  Messages are irrelevant to the properties and elided. -/
inductive PyError where
  | valueError
  | typeError
deriving DecidableEq, Repr

/-- A Python value passed to `set_state`: an `int`, or a value of any
other type (rejected by the `isinstance(s, int)` check). -/
inductive PyVal where
  | int (s : Nat)
  | nonInt
deriving DecidableEq, Repr

/-- Fuel-driven binary digit sum, evaluating `x.bit_count()`:
a fuel of at least `x` steps is always enough since `x` halves. -/
def bitCountAux : Nat → Nat → Nat
  | 0, _ => 0
  | fuel + 1, x => if x = 0 then 0 else x % 2 + bitCountAux fuel (x / 2)

/-- `x.bit_count()`: the number of 1 bits of `x`. -/
def bitCount (x : Nat) : Nat := bitCountAux x x

/-- `_parity(x)` from the source: `x.bit_count() & 1`. -/
def parity (x : Nat) : Nat := bitCount x &&& 1

/-- The `LFSR` dataclass: width `n`, current `state`, the `taps` tuple as
configured, and the two derived masks `_mask_n` and `_tap_mask`. -/
structure LFSR where
  n : Nat
  state : Nat
  taps : List Nat
  mask_n : Nat
  tap_mask : Nat
deriving DecidableEq, Repr

/-- `set_size(n)`: rejects `n <= 1`, otherwise stores the width and
recomputes `_mask_n = (1 << n) - 1`. -/
def set_size (l : LFSR) (n : Nat) : LFSR × Option PyError :=
  if n ≤ 1 then (l, some .valueError)
  else ({ l with n := n, mask_n := (1 <<< n) - 1 }, none)

/-- `get_size()`. -/
def get_size (l : LFSR) : Nat := l.n

/-- `set_state(s)`: `TypeError` on a non-`int`, `ValueError` when
`s <= 0 or s >= (1 << self.n)`, otherwise stores `s & self._mask_n`. -/
def set_state (l : LFSR) (v : PyVal) : LFSR × Option PyError :=
  match v with
  | .nonInt => (l, some .typeError)
  | .int s =>
    if s ≤ 0 ∨ (1 <<< l.n) ≤ s then (l, some .valueError)
    else ({ l with state := s &&& l.mask_n }, none)

/-- `get_state()`. -/
def get_state (l : LFSR) : Nat := l.state

/-- Fuel-driven most-significant-bit-first binary digit list of `x`,
evaluating Python's `format(x, "b")` (one digit for `x < 2`, otherwise
the digits of `x // 2` followed by the low digit). -/
def binDigitsAux : Nat → Nat → List Char
  | 0, _ => []
  | fuel + 1, x =>
    if x < 2 then [if x = 1 then '1' else '0']
    else binDigitsAux fuel (x / 2) ++ [if x % 2 = 1 then '1' else '0']

/-- The binary digits of `x`, most significant first, at least one. -/
def binDigits (x : Nat) : List Char := binDigitsAux (x + 1) x

/-- `get_state_bits()`: `format(self.state, f"0{self.n}b")`, the binary
rendering of the state zero-padded on the left to `n` characters. -/
def get_state_bits (l : LFSR) : String :=
  ⟨List.replicate (l.n - (binDigits l.state).length) '0' ++ binDigits l.state⟩

/-- The `_tap_mask` loop of `set_taps`: starting from `0`, OR in
`1 << t` for each tap `t` in order. -/
def tapMask (taps : List Nat) : Nat := taps.foldl (fun m t => m ||| (1 <<< t)) 0

/-- `set_taps(taps)`: rejects any position `t` with `t < 0 or t >= n`
(the first disjunct is vacuous over `Nat`), otherwise stores the tuple
as given and recomputes `_tap_mask`. -/
def set_taps (l : LFSR) (taps : List Nat) : LFSR × Option PyError :=
  if taps.any (fun t => decide (l.n ≤ t)) then (l, some .valueError)
  else ({ l with taps := taps, tap_mask := tapMask taps }, none)

/-- `get_taps()`. -/
def get_taps (l : LFSR) : List Nat := l.taps

/-- `next_bit()`: output the LSB of the state, then replace the state by
`((state >> 1) | (feedback << (n - 1))) & _mask_n` where the feedback is
`_parity(state & _tap_mask)`. -/
def next_bit (l : LFSR) : Nat × LFSR :=
  let out := l.state &&& 1
  let fb := parity (l.state &&& l.tap_mask)
  (out, { l with state := ((l.state >>> 1) ||| (fb <<< (l.n - 1))) &&& l.mask_n })

/-- `LFSR(n=.., state=.., taps=..)`: the dataclass stores the three
fields, then `__post_init__` runs `set_size`, `set_state`, `set_taps` in
order; the first raised error aborts construction. -/
def construct (n s : Nat) (taps : List Nat) : Except PyError LFSR :=
  let l0 : LFSR := ⟨n, s, taps, 0, 0⟩
  match set_size l0 n with
  | (_, some e) => .error e
  | (l1, none) =>
    match set_state l1 (.int s) with
    | (_, some e) => .error e
    | (l2, none) =>
      match set_taps l2 taps with
      | (_, some e) => .error e
      | (l3, none) => .ok l3

/-- The `while steps < max_steps` loop of `period`, with the remaining
step budget as fuel: step once, stop when the state equals `start` or is
already in `seen`, otherwise record it and continue. -/
def periodAux : Nat → LFSR → Nat → List Nat → Nat → Nat × LFSR
  | 0, l, _, _, steps => (steps, l)
  | fuel + 1, l, start, seen, steps =>
    let l' := (next_bit l).2
    let steps' := steps + 1
    if l'.state = start then (steps', l')
    else if l'.state ∈ seen then (steps', l')
    else periodAux fuel l' start (l'.state :: seen) steps'

/-- `period(limit)`: budget `(1 << n) - 1` when `limit is None`, else
`limit`; the visited set starts as `{start}` and `steps` at `0`. -/
def period (l : LFSR) (limit : Option Nat) : Nat × LFSR :=
  let max_steps := match limit with
    | none => (1 <<< l.n) - 1
    | some m => m
  periodAux max_steps l l.state [l.state] 0

/-- `bits(k)`: the list of `k` successive `next_bit()` outputs, with the
register as the calls leave it. -/
def bits : LFSR → Nat → List Nat × LFSR
  | l, 0 => ([], l)
  | l, k + 1 =>
    let (b, l') := next_bit l
    let (rest, l'') := bits l' k
    (b :: rest, l'')

/-- The register after `k` calls of `next_bit()`. -/
def stepN : Nat → LFSR → LFSR
  | 0, l => l
  | k + 1, l => (next_bit (stepN k l)).2

/-- The state after `k` calls of `next_bit()`. -/
def traj (l : LFSR) (k : Nat) : Nat := (stepN k l).state

/-- Spec-side feedback: the XOR parity of the state's bits at the listed
tap positions, one contribution per list entry. -/
def feedbackSpec (s : Nat) (taps : List Nat) : Nat :=
  taps.foldr (fun t acc => (if s.testBit t then 1 else 0) ^^^ acc) 0

/-- A validly configured register: width above one, state inside the
width, every tap inside the width, and the two cached masks consistent
with the width and the tap tuple. -/
def WF (l : LFSR) : Prop :=
  1 < l.n ∧ l.state < 2 ^ l.n ∧ (∀ t ∈ l.taps, t < l.n) ∧
    l.mask_n = 2 ^ l.n - 1 ∧ l.tap_mask = tapMask l.taps

/-- The register of the basic demo: width 4, state `0b0110`, taps `(3, 2)`,
with the masks `set_size` and `set_taps` derive for it. -/
def reg4 : LFSR := ⟨4, 6, [3, 2], 15, 12⟩

lemma bitCountAux_zero (fuel : Nat) : bitCountAux fuel 0 = 0 := by
  cases fuel <;> simp [bitCountAux]

lemma bitCountAux_stable : ∀ fuel fuel' x, x ≤ fuel → x ≤ fuel' →
    bitCountAux fuel x = bitCountAux fuel' x := by
  intro fuel
  induction fuel with
  | zero =>
    intro fuel' x hx _
    have hx0 : x = 0 := Nat.le_zero.mp hx
    subst hx0
    simp [bitCountAux_zero]
  | succ f ih =>
    intro fuel' x hx hx'
    rcases Nat.eq_zero_or_pos x with h0 | hpos
    · subst h0; simp [bitCountAux_zero]
    · cases fuel' with
      | zero => omega
      | succ f' =>
        have hne : x ≠ 0 := by omega
        have hlt : x / 2 < x := Nat.div_lt_self hpos (by omega)
        simp only [bitCountAux, if_neg hne]
        congr 1
        exact ih f' (x / 2) (by omega) (by omega)

lemma bitCount_eq (x : Nat) (hx : x ≠ 0) :
    bitCount x = x % 2 + bitCount (x / 2) := by
  cases x with
  | zero => exact absurd rfl hx
  | succ m =>
    show bitCountAux (m + 1) (m + 1) = _
    have hlt : (m + 1) / 2 < m + 1 := Nat.div_lt_self (by omega) (by omega)
    simp only [bitCountAux, if_neg hx]
    congr 1
    exact bitCountAux_stable m ((m + 1) / 2) ((m + 1) / 2) (by omega) (by omega)

lemma parity_zero : parity 0 = 0 := rfl

lemma parity_eq_mod (x : Nat) : parity x = bitCount x % 2 := by
  simp [parity, Nat.and_one_is_mod]

lemma lor_div_two (x y : Nat) : (x ||| y) / 2 = x / 2 ||| y / 2 := by
  apply Nat.eq_of_testBit_eq
  intro i
  simp [Nat.testBit_div_two, Nat.testBit_or]

lemma disjoint_div_two {x y : Nat} (h : x &&& y = 0) : x / 2 &&& y / 2 = 0 := by
  apply Nat.eq_of_testBit_eq
  intro i
  have hj := congrArg (fun z => z.testBit (i + 1)) h
  simp only [Nat.testBit_and, Nat.zero_testBit] at hj
  simp [Nat.testBit_div_two, Nat.testBit_and, hj]

lemma lor_eq_zero_left {x y : Nat} (h : x ||| y = 0) : x = 0 := by
  apply Nat.eq_of_testBit_eq
  intro i
  have := congrArg (fun z => z.testBit i) h
  simp only [Nat.testBit_or, Nat.zero_testBit, Bool.or_eq_false_iff] at this
  simp [this.1]

lemma lor_mod_two_of_disjoint {x y : Nat} (h : x &&& y = 0) :
    (x ||| y) % 2 = x % 2 + y % 2 := by
  have h0 := congrArg (fun z => z.testBit 0) h
  have h1 := Nat.testBit_or x y 0
  simp only [Nat.testBit_and, Nat.testBit_zero, Nat.zero_testBit] at h0 h1
  rcases Nat.mod_two_eq_zero_or_one x with hx | hx <;>
    rcases Nat.mod_two_eq_zero_or_one y with hy | hy <;>
    rcases Nat.mod_two_eq_zero_or_one (x ||| y) with hxy | hxy <;>
    simp [hx, hy, hxy] at h0 h1 ⊢

lemma bitCount_lor_of_disjoint : ∀ x y : Nat, x &&& y = 0 →
    bitCount (x ||| y) = bitCount x + bitCount y := by
  intro x
  induction x using Nat.strong_induction_on with
  | _ x ih =>
    intro y h
    rcases Nat.eq_zero_or_pos x with hx0 | hxpos
    · subst hx0
      simp [Nat.zero_or]
      rfl
    · rcases Nat.eq_zero_or_pos y with hy0 | hypos
      · subst hy0
        simp [Nat.or_zero]
        rfl
      · have hxne : x ≠ 0 := by omega
        have hxy : x ||| y ≠ 0 := fun hc => by
          have := lor_eq_zero_left hc
          omega
        have hdiv : x / 2 < x := Nat.div_lt_self hxpos (by omega)
        rw [bitCount_eq _ hxy, lor_mod_two_of_disjoint h, lor_div_two,
          ih (x / 2) hdiv (y / 2) (disjoint_div_two h),
          bitCount_eq x hxne, bitCount_eq y (by omega)]
        omega

lemma bitCount_two_pow (t : Nat) : bitCount (2 ^ t) = 1 := by
  induction t with
  | zero => rfl
  | succ t ih =>
    have h2 : (2 : Nat) ^ (t + 1) ≠ 0 := Nat.pos_iff_ne_zero.mp (Nat.two_pow_pos _)
    rw [bitCount_eq _ h2, Nat.pow_succ, Nat.mul_mod_left,
      Nat.mul_div_cancel _ (by omega), ih]

lemma parity_lor_of_disjoint {x y : Nat} (h : x &&& y = 0) :
    parity (x ||| y) = parity x ^^^ parity y := by
  rw [parity_eq_mod, parity_eq_mod, parity_eq_mod, bitCount_lor_of_disjoint x y h]
  rcases Nat.mod_two_eq_zero_or_one (bitCount x) with h1 | h1 <;>
    rcases Nat.mod_two_eq_zero_or_one (bitCount y) with h2 | h2 <;>
    rw [Nat.add_mod, h1, h2] <;> rfl

lemma parity_land_two_pow (s t : Nat) :
    parity (s &&& 2 ^ t) = if s.testBit t then 1 else 0 := by
  rw [Nat.and_two_pow]
  cases h : s.testBit t
  · simp [parity_zero]
  · rw [parity_eq_mod]
    simp [bitCount_two_pow]

lemma foldl_tapMask_testBit : ∀ (ts : List Nat) (a i : Nat),
    (List.foldl (fun m t => m ||| (1 <<< t)) a ts).testBit i =
      (a.testBit i || decide (i ∈ ts)) := by
  intro ts
  induction ts with
  | nil => intro a i; simp
  | cons t ts ih =>
    intro a i
    rw [List.foldl_cons, ih]
    simp only [Nat.testBit_or, Nat.one_shiftLeft, Nat.testBit_two_pow, List.mem_cons]
    by_cases h : i = t
    · subst h; simp
    · have h' : t ≠ i := fun hc => h hc.symm
      simp [h, h']

lemma tapMask_testBit (ts : List Nat) (i : Nat) :
    (tapMask ts).testBit i = decide (i ∈ ts) := by
  rw [tapMask, foldl_tapMask_testBit]
  simp

lemma land_tapMask_cons (s t : Nat) (ts : List Nat) :
    s &&& tapMask (t :: ts) = (s &&& 2 ^ t) ||| (s &&& tapMask ts) := by
  apply Nat.eq_of_testBit_eq
  intro i
  simp only [Nat.testBit_and, Nat.testBit_or, tapMask_testBit, Nat.testBit_two_pow,
    List.mem_cons]
  rw [← Bool.and_or_distrib_left]
  by_cases h : i = t
  · subst h; simp
  · have h' : t ≠ i := fun hc => h hc.symm
    simp [h, h']

lemma land_tapMask_disjoint (s t : Nat) (ts : List Nat) (h : t ∉ ts) :
    (s &&& 2 ^ t) &&& (s &&& tapMask ts) = 0 := by
  apply Nat.eq_of_testBit_eq
  intro i
  simp only [Nat.testBit_and, tapMask_testBit, Nat.testBit_two_pow, Nat.zero_testBit]
  by_cases hit : i = t
  · subst hit; simp [h]
  · have h' : t ≠ i := fun hc => hit hc.symm
    simp [h']

lemma parity_land_tapMask (s : Nat) : ∀ ts : List Nat, ts.Nodup →
    parity (s &&& tapMask ts) = feedbackSpec s ts := by
  intro ts
  induction ts with
  | nil =>
    intro _
    show parity (s &&& tapMask []) = _
    rw [tapMask]
    simp [feedbackSpec, parity_zero]
  | cons t ts ih =>
    intro hnd
    rw [List.nodup_cons] at hnd
    rw [land_tapMask_cons,
      parity_lor_of_disjoint (land_tapMask_disjoint s t ts hnd.1),
      parity_land_two_pow, ih hnd.2]
    simp [feedbackSpec]

lemma tapMask_dedup (ts : List Nat) : tapMask ts = tapMask ts.dedup := by
  apply Nat.eq_of_testBit_eq
  intro i
  simp [tapMask_testBit, List.mem_dedup]

/-- C1: on a validly configured register, `next_bit()` returns the
least-significant bit of the pre-call state and replaces the state with
`(old state >> 1) | (feedback << (width - 1))` masked to `width` bits,
the feedback being the XOR parity of the old state's bits at the
configured tap positions; width and taps are untouched. -/
theorem next_bit_correct (l : LFSR) (hWF : WF l) (hnd : l.taps.Nodup) :
    (next_bit l).1 = l.state % 2 ∧
    (next_bit l).2.state =
      ((l.state / 2) ||| (feedbackSpec l.state l.taps <<< (l.n - 1))) % 2 ^ l.n ∧
    (next_bit l).2.n = l.n ∧ (next_bit l).2.taps = l.taps := by
  obtain ⟨-, -, -, hmask, htap⟩ := hWF
  refine ⟨by simp [next_bit, Nat.and_one_is_mod], ?_, rfl, rfl⟩
  show ((l.state >>> 1) ||| (parity (l.state &&& l.tap_mask)) <<< (l.n - 1)) &&& l.mask_n = _
  rw [htap, parity_land_tapMask l.state l.taps hnd, hmask,
    Nat.and_pow_two_sub_one_eq_mod, Nat.shiftRight_one]

/-- Witness for C1 at the demo register. -/
theorem next_bit_correct_witness :
    (next_bit reg4).1 = reg4.state % 2 ∧
    (next_bit reg4).2.state =
      ((reg4.state / 2) ||| (feedbackSpec reg4.state reg4.taps <<< (reg4.n - 1))) % 2 ^ reg4.n ∧
    (next_bit reg4).2.n = reg4.n ∧ (next_bit reg4).2.taps = reg4.taps :=
  next_bit_correct reg4 ⟨by decide, by decide, by decide, by decide, by decide⟩ (by decide)

lemma next_bit_n (l : LFSR) : (next_bit l).2.n = l.n := rfl

lemma next_bit_mask (l : LFSR) : (next_bit l).2.mask_n = l.mask_n := rfl

lemma next_bit_taps (l : LFSR) : (next_bit l).2.taps = l.taps := rfl

lemma stepN_n (k : Nat) (l : LFSR) : (stepN k l).n = l.n := by
  induction k with
  | zero => rfl
  | succ k ih => rw [stepN, next_bit_n, ih]

lemma stepN_mask (k : Nat) (l : LFSR) : (stepN k l).mask_n = l.mask_n := by
  induction k with
  | zero => rfl
  | succ k ih => rw [stepN, next_bit_mask, ih]

/-- C3: on a validly configured register every state reachable by
`next_bit()` stays below `2^width`, and a successful construction or
`set_state` leaves the state at least `1`. -/
theorem range_invariant :
    (∀ l : LFSR, 1 < l.n → 1 ≤ l.state → l.state < 2 ^ l.n →
      l.mask_n = 2 ^ l.n - 1 → ∀ k, (stepN k l).state < 2 ^ l.n) ∧
    (∀ (n s : Nat) (ts : List Nat) (l : LFSR), construct n s ts = .ok l →
      1 ≤ l.state) ∧
    (∀ (l : LFSR) (v : PyVal), l.mask_n = 2 ^ l.n - 1 → (set_state l v).2 = none →
      1 ≤ (set_state l v).1.state) := by
  refine ⟨?_, ?_, ?_⟩
  · intro l hn h1 hlt hmask k
    induction k with
    | zero => exact hlt
    | succ k ih =>
      have hm := stepN_mask k l
      simp only [stepN, next_bit]
      rw [hm, hmask, Nat.and_pow_two_sub_one_eq_mod]
      exact Nat.mod_lt _ (Nat.two_pow_pos _)
  · intro n s ts l h
    by_cases hn : n ≤ 1
    · simp [construct, set_size, hn] at h
    · by_cases hs : s = 0 ∨ (1 <<< n) ≤ s
      · simp [construct, set_size, set_state, hn, hs] at h
      · by_cases ht : ∃ t ∈ ts, n ≤ t
        · simp [construct, set_size, set_state, set_taps, hn, hs, ht] at h
        · simp [construct, set_size, set_state, set_taps, hn, hs, ht] at h
          push_neg at hs
          have h2 : s < 2 ^ n := by
            have := hs.2
            rwa [Nat.one_shiftLeft] at this
          rw [← h]
          show 1 ≤ s &&& ((1 <<< n) - 1)
          rw [Nat.one_shiftLeft, Nat.and_pow_two_sub_one_eq_mod,
            Nat.mod_eq_of_lt h2]
          omega
  · intro l v hmask h
    cases v with
    | nonInt => simp [set_state] at h
    | int s =>
      by_cases hs : s = 0 ∨ (1 <<< l.n) ≤ s
      · simp [set_state, hs] at h
      · have h1 : (set_state l (.int s)).1 = { l with state := s &&& l.mask_n } := by
          simp [set_state, hs]
        rw [h1]
        push_neg at hs
        have h2 : s < 2 ^ l.n := by
          have := hs.2
          rwa [Nat.one_shiftLeft] at this
        show 1 ≤ s &&& l.mask_n
        rw [hmask, Nat.and_pow_two_sub_one_eq_mod, Nat.mod_eq_of_lt h2]
        omega

/-- Witness for C3 at the demo register. -/
theorem range_invariant_witness :
    (stepN 5 reg4).state < 2 ^ reg4.n ∧ 1 ≤ reg4.state ∧
      1 ≤ (set_state reg4 (.int 9)).1.state :=
  ⟨range_invariant.1 reg4 (by decide) (by decide) (by decide) (by decide) 5,
   range_invariant.2.1 4 6 [3, 2] reg4 rfl,
   range_invariant.2.2 reg4 (.int 9) (by decide) (by decide)⟩

/-- C5: a setter call that fails validation leaves every field of the
register (width, state, tap tuple, and both derived masks) unchanged:
each setter validates before assigning. -/
theorem setter_failure_no_mutation :
    (∀ (l : LFSR) (x : Nat), (set_size l x).2.isSome → (set_size l x).1 = l) ∧
    (∀ (l : LFSR) (v : PyVal), (set_state l v).2.isSome → (set_state l v).1 = l) ∧
    (∀ (l : LFSR) (ts : List Nat), (set_taps l ts).2.isSome → (set_taps l ts).1 = l) := by
  refine ⟨?_, ?_, ?_⟩
  · intro l x h
    by_cases hx : x ≤ 1
    · simp [set_size, hx]
    · simp [set_size, hx] at h
  · intro l v h
    cases v with
    | nonInt => simp [set_state]
    | int s =>
      by_cases hs : s = 0 ∨ (1 <<< l.n) ≤ s
      · simp [set_state, hs]
      · simp [set_state, hs] at h
  · intro l ts h
    by_cases ht : ∃ t ∈ ts, l.n ≤ t
    · simp [set_taps, ht]
    · simp [set_taps, ht] at h

/-- Witness for C5: four concrete failing calls on the demo register. -/
theorem setter_failure_no_mutation_witness :
    (set_size reg4 1).1 = reg4 ∧ (set_state reg4 (.int 0)).1 = reg4 ∧
      (set_state reg4 .nonInt).1 = reg4 ∧ (set_taps reg4 [4]).1 = reg4 :=
  ⟨setter_failure_no_mutation.1 reg4 1 (by decide),
   setter_failure_no_mutation.2.1 reg4 (.int 0) (by decide),
   setter_failure_no_mutation.2.1 reg4 .nonInt (by decide),
   setter_failure_no_mutation.2.2 reg4 [4] (by decide)⟩

/-- C4 as stated is false: a non-integer `set_state` argument raises
`TypeError`, while the other validation failures raise `ValueError` —
two distinct error kinds, not one. -/
theorem error_kind_counterexample :
    (set_state reg4 .nonInt).2 = some PyError.typeError ∧
    (set_size reg4 1).2 = some PyError.valueError ∧
    PyError.typeError ≠ PyError.valueError := by decide

/-- C4 amended: width, state-range and tap-range failures all raise
`ValueError`; a non-integer state raises `TypeError` (a second kind). -/
theorem error_kinds_amended :
    (∀ (l : LFSR) (x : Nat), x ≤ 1 → (set_size l x).2 = some PyError.valueError) ∧
    (∀ (l : LFSR) (s : Nat), s = 0 ∨ 2 ^ l.n ≤ s →
      (set_state l (.int s)).2 = some PyError.valueError) ∧
    (∀ l : LFSR, (set_state l .nonInt).2 = some PyError.typeError) ∧
    (∀ (l : LFSR) (ts : List Nat) (t : Nat), t ∈ ts → l.n ≤ t →
      (set_taps l ts).2 = some PyError.valueError) := by
  refine ⟨?_, ?_, ?_, ?_⟩
  · intro l x hx
    simp [set_size, hx]
  · intro l s hs
    have hs' : s = 0 ∨ (1 <<< l.n) ≤ s := by
      rw [Nat.one_shiftLeft]
      omega
    simp [set_state, hs']
  · intro l
    simp [set_state]
  · intro l ts t ht hn
    have ha : (ts.any fun u => decide (l.n ≤ u)) = true := by
      simp only [List.any_eq_true, decide_eq_true_eq]
      exact ⟨t, ht, hn⟩
    simp [set_taps, ha]

/-- Witness for the amended C4 at concrete failing calls. -/
theorem error_kinds_amended_witness :
    (set_size reg4 0).2 = some PyError.valueError ∧
      (set_state reg4 (.int 16)).2 = some PyError.valueError ∧
      (set_state reg4 .nonInt).2 = some PyError.typeError ∧
      (set_taps reg4 [1, 7]).2 = some PyError.valueError :=
  ⟨error_kinds_amended.1 reg4 0 (by decide),
   error_kinds_amended.2.1 reg4 16 (by decide),
   error_kinds_amended.2.2.1 reg4,
   error_kinds_amended.2.2.2 reg4 [1, 7] 7 (by decide) (by decide)⟩

/-- C6 as stated is false: shrinking the width with `set_size` does not
revalidate the stored taps, so a tap position can end up at or above the
width. -/
theorem taps_bound_counterexample :
    (set_size reg4 2).2 = none ∧ 3 ∈ (set_size reg4 2).1.taps ∧
      ¬3 < (set_size reg4 2).1.n := by decide

/-- Every stored tap position is strictly below the stored width. -/
def TapsWF (l : LFSR) : Prop := ∀ t ∈ l.taps, t < l.n

lemma bits_pres (P : LFSR → Prop) (hP : ∀ l, P l → P (next_bit l).2) :
    ∀ (k : Nat) (l : LFSR), P l → P (bits l k).2 := by
  intro k
  induction k with
  | zero => intro l h; exact h
  | succ k ih =>
    intro l h
    simp only [bits]
    exact ih _ (hP l h)

lemma periodAux_pres (P : LFSR → Prop) (hP : ∀ l, P l → P (next_bit l).2) :
    ∀ (fuel : Nat) (l : LFSR) (start : Nat) (seen : List Nat) (steps : Nat),
      P l → P (periodAux fuel l start seen steps).2 := by
  intro fuel
  induction fuel with
  | zero => intro l start seen steps h; exact h
  | succ f ih =>
    intro l start seen steps h
    simp only [periodAux]
    split
    · exact hP l h
    · split
      · exact hP l h
      · exact ih _ _ _ _ (hP l h)

/-- C6 amended: the tap bound is established by construction and by a
successful `set_taps`, and preserved by `set_state`, `next_bit()`,
`bits()` and `period()` — but not by `set_size`, which does not
revalidate previously stored taps. -/
theorem taps_bound_amended :
    (∀ (n s : Nat) (ts : List Nat) (l : LFSR), construct n s ts = .ok l → TapsWF l) ∧
    (∀ (l : LFSR) (ts : List Nat), (set_taps l ts).2 = none →
      TapsWF (set_taps l ts).1) ∧
    (∀ (l : LFSR) (v : PyVal), TapsWF l → TapsWF (set_state l v).1) ∧
    (∀ l : LFSR, TapsWF l → TapsWF (next_bit l).2) ∧
    (∀ (l : LFSR) (k : Nat), TapsWF l → TapsWF (bits l k).2) ∧
    (∀ (l : LFSR) (lim : Option Nat), TapsWF l → TapsWF (period l lim).2) := by
  have hnext : ∀ l : LFSR, TapsWF l → TapsWF (next_bit l).2 := by
    intro l h t ht
    rw [next_bit_n]
    exact h t ht
  have htaps : ∀ (l : LFSR) (ts : List Nat), (set_taps l ts).2 = none →
      TapsWF (set_taps l ts).1 := by
    intro l ts h
    by_cases ht : ∃ t ∈ ts, l.n ≤ t
    · simp [set_taps, ht] at h
    · have h1 : (set_taps l ts).1 = { l with taps := ts, tap_mask := tapMask ts } := by
        simp [set_taps, ht]
      rw [h1]
      intro t hmem
      simp only [List.any_eq_true, decide_eq_true_eq] at ht
      push_neg at ht
      exact ht t hmem
  refine ⟨?_, htaps, ?_, hnext, ?_, ?_⟩
  · intro n s ts l h
    by_cases hn : n ≤ 1
    · simp [construct, set_size, hn] at h
    · by_cases hs : s = 0 ∨ (1 <<< n) ≤ s
      · simp [construct, set_size, set_state, hn, hs] at h
      · by_cases ht : ∃ t ∈ ts, n ≤ t
        · simp [construct, set_size, set_state, set_taps, hn, hs, ht] at h
        · simp [construct, set_size, set_state, set_taps, hn, hs, ht] at h
          rw [← h]
          intro t hmem
          simp only [List.any_eq_true, decide_eq_true_eq] at ht
          push_neg at ht
          exact ht t hmem
  · intro l v h t ht
    cases v with
    | nonInt => exact h t ht
    | int s =>
      by_cases hs : s = 0 ∨ (1 <<< l.n) ≤ s
      · have h1 : (set_state l (.int s)).1 = l := by simp [set_state, hs]
        rw [h1] at ht ⊢
        exact h t ht
      · have h1 : (set_state l (.int s)).1 = { l with state := s &&& l.mask_n } := by
          simp [set_state, hs]
        rw [h1] at ht ⊢
        exact h t ht
  · intro l k h
    exact bits_pres TapsWF hnext k l h
  · intro l lim h
    exact periodAux_pres TapsWF hnext _ _ _ _ _ h

/-- Witness for the amended C6 at concrete calls. -/
theorem taps_bound_amended_witness :
    TapsWF reg4 ∧ TapsWF (next_bit reg4).2 ∧ TapsWF (set_taps reg4 [0, 1]).1 ∧
      TapsWF (period reg4 none).2 :=
  ⟨taps_bound_amended.1 4 6 [3, 2] reg4 rfl,
   taps_bound_amended.2.2.2.1 reg4
     (taps_bound_amended.1 4 6 [3, 2] reg4 rfl),
   taps_bound_amended.2.1 reg4 [0, 1] (by decide),
   taps_bound_amended.2.2.2.2.2 reg4 none
     (taps_bound_amended.1 4 6 [3, 2] reg4 rfl)⟩

/-- C2 is contradicted by the code itself: for width 4, taps (3, 2),
initial state 0b0110 the first output bit is 0 as documented, but the
state returns to 6 after 3 steps (6 → 11 → 13 → 6), not after 15 as the
module docstring and demo assert, and `period()` reports 3. -/
theorem basic_demo_period_bug :
    construct 4 6 [3, 2] = .ok reg4 ∧ (next_bit reg4).1 = 0 ∧
      traj reg4 1 = 11 ∧ traj reg4 2 = 13 ∧ traj reg4 3 = 6 ∧
      1 ≤ 3 ∧ 3 < 15 ∧ (period reg4 none).1 = 3 ∧ ¬(period reg4 none).1 = 15 := by
  refine ⟨rfl, ?_⟩
  decide

/-- C9: zero is a fixed point of the stepping rule (`next_bit()` outputs
0 and leaves the register unchanged), and zero is reachable: the validly
configured register of width 2, state 1, taps (1) steps to state 0. -/
theorem zero_fixed_point_and_reachable :
    (∀ l : LFSR, l.state = 0 → (next_bit l).1 = 0 ∧ (next_bit l).2 = l) ∧
    (∃ l : LFSR, construct 2 1 [1] = .ok l ∧ WF l ∧ traj l 1 = 0) := by
  constructor
  · intro l h
    cases l with
    | mk n state taps mask_n tap_mask =>
      simp only at h
      subst h
      constructor
      · simp [next_bit]
      · simp [next_bit, parity_zero, Nat.zero_shiftRight, Nat.zero_shiftLeft,
          Nat.zero_or, Nat.zero_and]
  · exact ⟨⟨2, 1, [1], 3, 2⟩, rfl, ⟨by decide, by decide, by decide, by decide, by decide⟩,
      by decide⟩

/-- Witness for C9 at a concrete zero-state register. -/
theorem zero_fixed_point_witness :
    (next_bit ⟨2, 0, [1], 3, 2⟩).1 = 0 ∧
      (next_bit ⟨2, 0, [1], 3, 2⟩).2 = (⟨2, 0, [1], 3, 2⟩ : LFSR) :=
  zero_fixed_point_and_reachable.1 ⟨2, 0, [1], 3, 2⟩ rfl

/-- C10: a successful `set_taps` stores the tuple verbatim (duplicates
and order preserved, and `get_taps()` returns it as passed), while the
feedback `next_bit()` computes equals the XOR parity over the distinct
tap positions only: `_tap_mask` ORs a duplicated position in once, so a
position listed twice contributes once rather than cancelling out. -/
theorem duplicate_taps (l : LFSR) (ts : List Nat)
    (h : (set_taps l ts).2 = none) :
    get_taps (set_taps l ts).1 = ts ∧
    (∀ s : Nat, parity (s &&& (set_taps l ts).1.tap_mask) = feedbackSpec s ts.dedup) ∧
    (next_bit (set_taps l ts).1).2.state =
      ((l.state >>> 1) ||| (feedbackSpec l.state ts.dedup <<< (l.n - 1))) &&& l.mask_n := by
  by_cases ht : ∃ t ∈ ts, l.n ≤ t
  · simp [set_taps, ht] at h
  · have h1 : (set_taps l ts).1 = { l with taps := ts, tap_mask := tapMask ts } := by
      simp [set_taps, ht]
    rw [h1]
    refine ⟨rfl, ?_, ?_⟩
    · intro s
      show parity (s &&& tapMask ts) = _
      rw [tapMask_dedup, parity_land_tapMask s ts.dedup (List.nodup_dedup ts)]
    · show ((l.state >>> 1) ||| (parity (l.state &&& tapMask ts)) <<< (l.n - 1)) &&& l.mask_n = _
      rw [tapMask_dedup, parity_land_tapMask l.state ts.dedup (List.nodup_dedup ts)]

/-- Witness for C10: taps `(2, 2)` on the demo register; the duplicated
position 2 contributes once on state 4 (bit 2 set), giving feedback 1. -/
theorem duplicate_taps_witness :
    get_taps (set_taps reg4 [2, 2]).1 = [2, 2] ∧
      parity (4 &&& (set_taps reg4 [2, 2]).1.tap_mask) = feedbackSpec 4 ([2, 2].dedup) :=
  ⟨(duplicate_taps reg4 [2, 2] (by decide)).1,
   (duplicate_taps reg4 [2, 2] (by decide)).2.1 4⟩

lemma binDigitsAux_stable : ∀ fuel fuel' x, x < fuel → x < fuel' →
    binDigitsAux fuel x = binDigitsAux fuel' x := by
  intro fuel
  induction fuel with
  | zero => intro fuel' x hx _; omega
  | succ f ih =>
    intro fuel' x hx hx'
    cases fuel' with
    | zero => omega
    | succ f' =>
      by_cases h2 : x < 2
      · simp only [binDigitsAux, if_pos h2]
      · have hdiv : x / 2 < x := Nat.div_lt_self (by omega) (by omega)
        simp only [binDigitsAux, if_neg h2]
        rw [ih f' (x / 2) (by omega) (by omega)]

lemma binDigits_lt_two (x : Nat) (h : x < 2) :
    binDigits x = [if x = 1 then '1' else '0'] := by
  simp [binDigits, binDigitsAux, h]

lemma binDigits_ge_two (x : Nat) (h : 2 ≤ x) :
    binDigits x = binDigits (x / 2) ++ [if x % 2 = 1 then '1' else '0'] := by
  show binDigitsAux (x + 1) x = _
  have h2 : ¬x < 2 := by omega
  simp only [binDigitsAux, if_neg h2]
  congr 1
  exact binDigitsAux_stable x (x / 2 + 1) (x / 2)
    (Nat.div_lt_self (by omega) (by omega)) (by omega)

/-- Spec-side rendering: the low `k` bits of `x` as characters, most
significant first. -/
def bitChars : Nat → Nat → List Char
  | 0, _ => []
  | k + 1, x => bitChars k (x / 2) ++ [if x % 2 = 1 then '1' else '0']

lemma bitChars_length (k x : Nat) : (bitChars k x).length = k := by
  induction k generalizing x with
  | zero => rfl
  | succ k ih => simp [bitChars, ih]

lemma bitChars_zero_state (k : Nat) : bitChars k 0 = List.replicate k '0' := by
  induction k with
  | zero => rfl
  | succ k ih => simp [bitChars, ih, List.replicate_succ']

lemma pad_eq_bitChars : ∀ n x, 1 ≤ n → x < 2 ^ n →
    List.replicate (n - (binDigits x).length) '0' ++ binDigits x = bitChars n x := by
  intro n
  induction n with
  | zero => intro x h; omega
  | succ n ih =>
    intro x _ hx
    by_cases h2 : x < 2
    · have hx2 : x % 2 = x := Nat.mod_eq_of_lt h2
      have hd : x / 2 = 0 := Nat.div_eq_of_lt h2
      rw [binDigits_lt_two x h2, bitChars, hd, bitChars_zero_state, hx2]
      simp
    · have h2' : 2 ≤ x := by omega
      have hn1 : 1 ≤ n := by
        rcases Nat.eq_zero_or_pos n with h0 | h0
        · subst h0
          norm_num at hx
          omega
        · exact h0
      have hxd : x / 2 < 2 ^ n := by
        rw [Nat.pow_succ] at hx
        omega
      have hlen : n + 1 - ((binDigits (x / 2)).length + 1) =
          n - (binDigits (x / 2)).length := by omega
      rw [binDigits_ge_two x h2', List.length_append, List.length_singleton, hlen,
        ← List.append_assoc, ih (x / 2) hn1 hxd, bitChars]

lemma bitChars_mem (k : Nat) : ∀ x : Nat, ∀ c ∈ bitChars k x, c = '0' ∨ c = '1' := by
  induction k with
  | zero => intro x c hc; simp [bitChars] at hc
  | succ k ih =>
    intro x c hc
    rw [bitChars] at hc
    rcases List.mem_append.mp hc with h | h
    · exact ih (x / 2) c h
    · have hcd := List.mem_singleton.mp h
      by_cases hx : x % 2 = 1
      · right; rw [hcd, if_pos hx]
      · left; rw [hcd, if_neg hx]

lemma bitChars_getD : ∀ (k x i : Nat), i < k →
    (bitChars k x).getD i ' ' = if x.testBit (k - 1 - i) then '1' else '0' := by
  intro k
  induction k with
  | zero => intro x i h; omega
  | succ k ih =>
    intro x i h
    rw [bitChars]
    by_cases hik : i < k
    · rw [List.getD_append _ _ _ _ (by rw [bitChars_length]; exact hik),
        ih (x / 2) i hik, Nat.testBit_div_two]
      have harith : k - 1 - i + 1 = k + 1 - 1 - i := by omega
      rw [harith]
    · have hik' : i = k := by omega
      subst hik'
      rw [List.getD_append_right _ _ _ _ (by simp [bitChars_length]),
        bitChars_length]
      simp only [Nat.sub_self]
      have ht : i + 1 - 1 - i = 0 := by omega
      rw [ht, Nat.testBit_zero]
      by_cases hx : x % 2 = 1
      · simp [hx]
      · simp [hx]

/-- C8: on a configured register (width at least one, state inside the
width) `get_state_bits()` is a pure read producing exactly `width`
characters, each '0' or '1', the i-th character from the left being bit
`width - 1 - i` of the state (most significant bit first, zero-padded). -/
theorem get_state_bits_correct (l : LFSR) (h1 : 1 ≤ l.n) (h2 : l.state < 2 ^ l.n) :
    (get_state_bits l).length = l.n ∧
    (∀ c ∈ (get_state_bits l).data, c = '0' ∨ c = '1') ∧
    ∀ i, i < l.n → (get_state_bits l).data.getD i ' ' =
      if l.state.testBit (l.n - 1 - i) then '1' else '0' := by
  have hd : (get_state_bits l).data = bitChars l.n l.state :=
    pad_eq_bitChars l.n l.state h1 h2
  refine ⟨?_, ?_, ?_⟩
  · show (get_state_bits l).data.length = l.n
    rw [hd, bitChars_length]
  · intro c hc
    rw [hd] at hc
    exact bitChars_mem l.n l.state c hc
  · intro i hi
    rw [hd]
    exact bitChars_getD l.n l.state i hi

/-- Witness for C8 at the demo register (state 0110). -/
theorem get_state_bits_correct_witness :
    (get_state_bits reg4).length = reg4.n ∧
      (get_state_bits reg4).data.getD 0 ' ' =
        if reg4.state.testBit (reg4.n - 1 - 0) then '1' else '0' :=
  ⟨(get_state_bits_correct reg4 (by decide) (by decide)).1,
   (get_state_bits_correct reg4 (by decide) (by decide)).2.2 0 (by decide)⟩

lemma periodAux_spec (l0 : LFSR) :
    ∀ (fuel steps : Nat) (seen : List Nat) (k : Nat) (lf : LFSR),
      (∀ x, x ∈ seen ↔ ∃ j, j ≤ steps ∧ x = traj l0 j) →
      (∀ i, 0 < i → i ≤ steps → ∀ j, j < i → traj l0 i ≠ traj l0 j) →
      periodAux fuel (stepN steps l0) l0.state seen steps = (k, lf) →
      steps ≤ k ∧ k ≤ steps + fuel ∧ lf = stepN k l0 ∧
        (k = steps + fuel ∨ ∃ j, j < k ∧ traj l0 k = traj l0 j) ∧
        (∀ i, 0 < i → i < k → ∀ j, j < i → traj l0 i ≠ traj l0 j) := by
  intro fuel
  induction fuel with
  | zero =>
    intro steps seen k lf hseen hmin heq
    simp only [periodAux, Prod.mk.injEq] at heq
    obtain ⟨hk, hlf⟩ := heq
    subst hk
    refine ⟨Nat.le_refl _, by omega, hlf.symm, Or.inl (by omega), ?_⟩
    intro i h0 hik j hj
    exact hmin i h0 (by omega) j hj
  | succ f ih =>
    intro steps seen k lf hseen hmin heq
    simp only [periodAux] at heq
    have e1 : (next_bit (stepN steps l0)).2 = stepN (steps + 1) l0 := rfl
    rw [e1] at heq
    have e2 : (stepN (steps + 1) l0).state = traj l0 (steps + 1) := rfl
    rw [e2] at heq
    by_cases h1 : traj l0 (steps + 1) = l0.state
    · rw [if_pos h1] at heq
      cases heq
      refine ⟨by omega, by omega, rfl, Or.inr ⟨0, by omega, h1⟩, ?_⟩
      intro i h0 hik j hj
      exact hmin i h0 (by omega) j hj
    · rw [if_neg h1] at heq
      by_cases h2 : traj l0 (steps + 1) ∈ seen
      · rw [if_pos h2] at heq
        cases heq
        obtain ⟨j, hj, hjx⟩ := (hseen _).mp h2
        refine ⟨by omega, by omega, rfl, Or.inr ⟨j, by omega, hjx⟩, ?_⟩
        intro i h0 hik j' hj'
        exact hmin i h0 (by omega) j' hj'
      · rw [if_neg h2] at heq
        have hseen' : ∀ x, x ∈ traj l0 (steps + 1) :: seen ↔
            ∃ j, j ≤ steps + 1 ∧ x = traj l0 j := by
          intro x
          simp only [List.mem_cons, hseen]
          constructor
          · rintro (rfl | ⟨j, hj, rfl⟩)
            · exact ⟨steps + 1, Nat.le_refl _, rfl⟩
            · exact ⟨j, by omega, rfl⟩
          · rintro ⟨j, hj, rfl⟩
            rcases Nat.lt_or_ge j (steps + 1) with hlt | hge
            · right
              exact ⟨j, by omega, rfl⟩
            · left
              have hj1 : j = steps + 1 := by omega
              rw [hj1]
        have hmin' : ∀ i, 0 < i → i ≤ steps + 1 → ∀ j, j < i →
            traj l0 i ≠ traj l0 j := by
          intro i h0 hi j hj
          rcases Nat.lt_or_ge i (steps + 1) with hlt | hge
          · exact hmin i h0 (by omega) j hj
          · have hi1 : i = steps + 1 := by omega
            subst hi1
            intro hcontra
            exact h2 ((hseen _).mpr ⟨j, by omega, hcontra⟩)
        obtain ⟨ha, hb, hc, hdisj, hmin2⟩ :=
          ih (steps + 1) (traj l0 (steps + 1) :: seen) k lf hseen' hmin' heq
        refine ⟨by omega, by omega, hc, ?_, hmin2⟩
        rcases hdisj with hd | hd
        · left
          omega
        · right
          exact hd

/-- C7: with budget `m` (and budget `2^width - 1` when no limit is
given), `period()` advances the register by exactly the returned count
`k` of `next_bit()` calls, `k` never exceeds `m`, `k` is the first step
at which the state revisits the starting state or any previously visited
state unless the budget ran out first, and no earlier positive step
revisits anything. -/
theorem period_spec (l : LFSR) (m : Nat) :
    (period l (some m)).1 ≤ m ∧
    (period l (some m)).2 = stepN (period l (some m)).1 l ∧
    ((period l (some m)).1 = m ∨
      traj l (period l (some m)).1 = l.state ∨
      ∃ j, 0 < j ∧ j < (period l (some m)).1 ∧
        traj l (period l (some m)).1 = traj l j) ∧
    (∀ i, 0 < i → i < (period l (some m)).1 → ∀ j, j < i →
      traj l i ≠ traj l j) ∧
    period l none = period l (some ((1 <<< l.n) - 1)) := by
  have hseen0 : ∀ x, x ∈ [l.state] ↔ ∃ j, j ≤ 0 ∧ x = traj l j := by
    intro x
    constructor
    · intro hx
      exact ⟨0, Nat.le_refl _, List.mem_singleton.mp hx⟩
    · rintro ⟨j, hj, rfl⟩
      have hj0 : j = 0 := by omega
      rw [hj0]
      exact List.mem_singleton.mpr rfl
  have hmin0 : ∀ i, 0 < i → i ≤ 0 → ∀ j, j < i → traj l i ≠ traj l j := by
    intro i h0 hi
    omega
  obtain ⟨ha, hb, hc, hdisj, hmin⟩ :=
    periodAux_spec l m 0 [l.state] (period l (some m)).1 (period l (some m)).2
      hseen0 hmin0 rfl
  refine ⟨by omega, hc, ?_, hmin, rfl⟩
  rcases hdisj with hd | ⟨j, hj, hjx⟩
  · left
    omega
  · rcases Nat.eq_zero_or_pos j with hj0 | hjpos
    · right
      left
      rw [hj0] at hjx
      exact hjx
    · right
      right
      exact ⟨j, hjpos, hj, hjx⟩

/-- Witness for C7 at the demo register with budget 5. -/
theorem period_spec_witness :
    (period reg4 (some 5)).1 ≤ 5 ∧
      (period reg4 (some 5)).2 = stepN (period reg4 (some 5)).1 reg4 :=
  ⟨(period_spec reg4 5).1, (period_spec reg4 5).2.1⟩

